import Mathlib

/-!
Verification of the data-preparation pipeline of a generative chatbot
(`data.py`).  Python strings are modelled as lists of Unicode code points
(`List Nat`); bytes are also `Nat` (always < 256).  Fallible operations
(encoding fix-up) return `Option`.  External collaborators (the NLTK
sentence and word tokenizers) are parameters of the functions that use
them; concrete instances used in end-to-end scenarios are defined below
and model NLTK's behaviour on cleaned, punctuation-free text.
-/

/-- Python strings modelled as lists of Unicode code points. -/
abbrev PyStr := List Nat

/-- Membership in Python's `string.punctuation`
(ASCII `!"#$%&'()*+,-./:;<=>?@[\]^_`\x7b|\x7d~`), as code-point ranges. -/
def isPunct (c : Nat) : Bool :=
  decide ((33 ≤ c ∧ c ≤ 47) ∨ (58 ≤ c ∧ c ≤ 64) ∨ (91 ≤ c ∧ c ≤ 96) ∨ (123 ≤ c ∧ c ≤ 126))

/-- Python `str.lower`, modelled on the Latin-1 range of code points (the
range the pipeline's encoding fix-up can produce from single bytes): ASCII
`A`–`Z` and the Latin-1 uppercase letters `À`–`Þ` except `×` map 32 code
points up, everything else is fixed. -/
def lowerCp (c : Nat) : Nat :=
  if 65 ≤ c ∧ c ≤ 90 then c + 32
  else if 192 ≤ c ∧ c ≤ 222 ∧ c ≠ 215 then c + 32
  else c

/-- Python `str.encode('latin1')`: each code point below 256 becomes the
byte of the same value; any larger code point raises. -/
def latin1Encode (s : PyStr) : Option (List Nat) :=
  if s.all (fun c => decide (c < 256)) then some s else none

/-- True of a UTF-8 continuation byte `0x80`–`0xBF`. -/
def isCont (b : Nat) : Bool := decide (128 ≤ b ∧ b ≤ 191)

/-- Constraint on the first continuation byte of a 3-byte UTF-8 sequence
(rules out overlong encodings after `0xE0` and surrogates after `0xED`). -/
def contE (b0 b1 : Nat) : Bool :=
  if b0 = 224 then decide (160 ≤ b1 ∧ b1 ≤ 191)
  else if b0 = 237 then decide (128 ≤ b1 ∧ b1 ≤ 159)
  else isCont b1

/-- Constraint on the first continuation byte of a 4-byte UTF-8 sequence
(rules out overlong encodings after `0xF0` and code points above
`0x10FFFF` after `0xF4`). -/
def contF (b0 b1 : Nat) : Bool :=
  if b0 = 240 then decide (144 ≤ b1 ∧ b1 ≤ 191)
  else if b0 = 244 then decide (128 ≤ b1 ∧ b1 ≤ 143)
  else isCont b1

/-- One step of strict UTF-8 decoding: decode the first code point of the
byte list and return it together with the remaining bytes, or fail when
the list starts with an ill-formed sequence. -/
def utf8DecodeOne : List Nat → Option (Nat × List Nat)
  | [] => none
  | b0 :: bs =>
    if b0 < 128 then some (b0, bs)
    else if 194 ≤ b0 ∧ b0 ≤ 223 then
      match bs with
      | b1 :: bs1 => if isCont b1 then some (b0 % 32 * 64 + b1 % 64, bs1) else none
      | [] => none
    else if 224 ≤ b0 ∧ b0 ≤ 239 then
      match bs with
      | b1 :: b2 :: bs2 =>
        if contE b0 b1 && isCont b2 then some (b0 % 16 * 4096 + b1 % 64 * 64 + b2 % 64, bs2)
        else none
      | _ => none
    else if 240 ≤ b0 ∧ b0 ≤ 244 then
      match bs with
      | b1 :: b2 :: b3 :: bs3 =>
        if contF b0 b1 && isCont b2 && isCont b3 then
          some (b0 % 8 * 262144 + b1 % 64 * 4096 + b2 % 64 * 64 + b3 % 64, bs3)
        else none
      | _ => none
    else none

/-- Decoding loop: repeatedly take one code point.  Each step consumes at
least one byte, so fuel equal to the byte count always suffices. -/
def utf8DecodeLoop : Nat → List Nat → Option (List Nat)
  | _, [] => some []
  | 0, _ :: _ => none
  | fuel + 1, b0 :: bs =>
    match utf8DecodeOne (b0 :: bs) with
    | none => none
    | some (c, rest) => (utf8DecodeLoop fuel rest).map (c :: ·)

/-- Python `bytes.decode('utf8')`: strict UTF-8 decoding of a byte list
into code points, failing on any ill-formed sequence. -/
def utf8Decode (bs : List Nat) : Option (List Nat) := utf8DecodeLoop bs.length bs

/-- `clean_content` from `data.py`: re-encode as Latin-1 and re-decode as
UTF-8 (the Facebook export fix-up, raising on failure), lowercase, strip
ASCII punctuation, and replace newlines with spaces. -/
def clean_content (content : PyStr) : Option PyStr :=
  (latin1Encode content).bind (fun bs =>
    (utf8Decode bs).map (fun cps =>
      (((cps.map lowerCp).filter (fun c => ! isPunct c)).map
        (fun c => if c = 10 then 32 else c))))

/-- Auxiliary: mapping a function that fixes every element of a list is the
identity on that list. -/
theorem list_map_id_of {α : Type} (l : List α) (f : α → α) (h : ∀ c ∈ l, f c = c) :
    l.map f = l := by
  induction l with
  | nil => rfl
  | cons a l ih =>
    simp only [List.map_cons, h a (by simp)]
    rw [ih (fun c hc => h c (by simp [hc]))]

/-- Auxiliary: filtering with a predicate that holds of every element of a
list is the identity on that list. -/
theorem list_filter_self {α : Type} (l : List α) (p : α → Bool) (h : ∀ c ∈ l, p c = true) :
    l.filter p = l := by
  induction l with
  | nil => rfl
  | cons a l ih =>
    simp only [List.filter_cons, h a (by simp), if_true]
    rw [ih (fun c hc => h c (by simp [hc]))]

/-- Auxiliary: the decoding loop is the identity on pure-ASCII byte lists,
given enough fuel. -/
theorem utf8DecodeLoop_ascii (fuel : Nat) :
    ∀ l : List Nat, (∀ c ∈ l, c < 128) → l.length ≤ fuel → utf8DecodeLoop fuel l = some l := by
  induction fuel with
  | zero =>
    intro l h hlen
    cases l with
    | nil => rfl
    | cons b bs => simp at hlen
  | succ n ih =>
    intro l h hlen
    cases l with
    | nil => rfl
    | cons b bs =>
      have hb : b < 128 := h b (by simp)
      have h1 : utf8DecodeOne (b :: bs) = some (b, bs) := by simp [utf8DecodeOne, hb]
      simp only [utf8DecodeLoop, h1]
      rw [ih bs (fun c hc => h c (by simp [hc])) (by simp at hlen; omega)]
      rfl

/-- Strict UTF-8 decoding is the identity on byte lists that are pure ASCII. -/
theorem utf8Decode_ascii (l : List Nat) (h : ∀ c ∈ l, c < 128) : utf8Decode l = some l :=
  utf8DecodeLoop_ascii l.length l h (Nat.le_refl _)

/-- The Latin-1 lowercase map never produces an ASCII uppercase letter. -/
theorem lowerCp_not_upper (c : Nat) : ¬(65 ≤ lowerCp c ∧ lowerCp c ≤ 90) := by
  unfold lowerCp
  split
  · omega
  · split <;> omega

/-- The Latin-1 lowercase map fixes ASCII code points that are not uppercase
letters. -/
theorem lowerCp_fix (c : Nat) (h1 : c < 128) (h2 : ¬(65 ≤ c ∧ c ≤ 90)) : lowerCp c = c := by
  unfold lowerCp
  rw [if_neg h2, if_neg (by omega)]

/-- C3 (corrected claim): `clean_content` is idempotent on inputs whose
cleaned form is pure ASCII: if `clean_content s` succeeds with an
all-ASCII result `x`, then `clean_content x` succeeds and returns `x`
unchanged.  (On non-ASCII results the encoding fix-up can fail, see the
counterexample.) -/
theorem c3_clean_content_idempotent_on_ascii (s x : PyStr)
    (hcl : clean_content s = some x) (hx : ∀ c ∈ x, c < 128) :
    clean_content x = some x := by
  simp only [clean_content, Option.bind_eq_some, Option.map_eq_some'] at hcl
  obtain ⟨bs, hbs, cps, hcps, hcl⟩ := hcl
  have hnoup : ∀ c ∈ x, ¬(65 ≤ c ∧ c ≤ 90) := by
    intro c hc
    rw [← hcl] at hc
    obtain ⟨c', hc', hce⟩ := List.mem_map.mp hc
    have hc'' := (List.mem_filter.mp hc').1
    obtain ⟨c0, _, hce0⟩ := List.mem_map.mp hc''
    by_cases h10 : c' = 10
    · rw [← hce]; simp [h10]
    · rw [← hce]; simp only [if_neg h10]
      rw [← hce0]; exact lowerCp_not_upper c0
  have hnop : ∀ c ∈ x, isPunct c = false := by
    intro c hc
    rw [← hcl] at hc
    obtain ⟨c', hc', hce⟩ := List.mem_map.mp hc
    have hfil := (List.mem_filter.mp hc').2
    by_cases h10 : c' = 10
    · rw [← hce]; simp [h10, isPunct]
    · rw [← hce]; simp only [if_neg h10]
      simpa using hfil
  have hno10 : ∀ c ∈ x, c ≠ 10 := by
    intro c hc
    rw [← hcl] at hc
    obtain ⟨c', _, hce⟩ := List.mem_map.mp hc
    by_cases h10 : c' = 10
    · rw [← hce]; simp [h10]
    · rw [← hce]; simp [h10]
  have h1 : latin1Encode x = some x := by
    unfold latin1Encode
    rw [if_pos]
    simp only [List.all_eq_true, decide_eq_true_eq]
    intro c hc
    exact Nat.lt_trans (hx c hc) (by omega)
  have e1 : x.map lowerCp = x :=
    list_map_id_of x lowerCp (fun c hc => lowerCp_fix c (hx c hc) (hnoup c hc))
  have e2 : x.filter (fun c => ! isPunct c) = x :=
    list_filter_self x _ (fun c hc => by simp [hnop c hc])
  have e3 : x.map (fun c => if c = 10 then 32 else c) = x :=
    list_map_id_of x _ (fun c hc => if_neg (hno10 c hc))
  simp only [clean_content, h1, Option.some_bind, utf8Decode_ascii x hx,
    Option.map_some', e1, e2, e3]

/-- Witness for C3's amended theorem at the concrete input `"Hello!"`,
whose cleaned form `"hello"` is pure ASCII and a fixed point of
`clean_content`. -/
theorem c3_clean_content_idempotent_on_ascii_witness :
    clean_content [72, 101, 108, 108, 111, 33] = some [104, 101, 108, 108, 111] ∧
    clean_content [104, 101, 108, 108, 111] = some [104, 101, 108, 108, 111] :=
  ⟨by decide,
   c3_clean_content_idempotent_on_ascii [72, 101, 108, 108, 111, 33]
     [104, 101, 108, 108, 111] (by decide) (by decide)⟩

/-- C3 (counterexample): cleaning the mojibake string `"Ã¦"` (code points
`[195, 166]`) succeeds and yields `"æ"` (`[230]`), but cleaning that output
again fails, because the single byte `0xE6` is not valid UTF-8.  So
`clean_content` applied to its own output does not always succeed, refuting
the claim as stated. -/
theorem c3_counterexample :
    clean_content [195, 166] = some [230] ∧ clean_content [230] = none := by
  decide

/-- A parsed entry of the `messages` list of a corpus file: `sender_name`
is always present, `content` may be absent (`load_utterances` tests
membership of the key `content`). -/
structure Entry where
  sender_name : PyStr
  content : Option PyStr
deriving DecidableEq

/-- A loaded message: both fields have been passed through `clean_content`. -/
structure Msg where
  sender_name : PyStr
  content : PyStr
deriving DecidableEq

/-- `load_utterances` from `data.py`, modelled on the flattened list of
parsed entries (the `os.walk`/JSON-parsing plumbing concatenates the
`messages` lists of all files in traversal order; entries are processed in
that order).  An entry is included exactly when its `content` key is
present; both fields go through `clean_content`, whose failure aborts the
whole load (the Python exception propagates). -/
def load_utterances : List Entry → Option (List Msg)
  | [] => some []
  | e :: rest =>
    match e.content with
    | none => load_utterances rest
    | some c =>
      (clean_content e.sender_name).bind (fun s =>
        (clean_content c).bind (fun c' =>
          (load_utterances rest).map (fun tail => ⟨s, c'⟩ :: tail)))

/-- The per-entry emission of `load_utterances`: a message exactly when the
`content` field is present and both cleanings succeed. -/
def emitEntry (e : Entry) : Option Msg :=
  match e.content with
  | none => none
  | some c =>
    match clean_content e.sender_name, clean_content c with
    | some s, some c' => some ⟨s, c'⟩
    | _, _ => none

/-- C5 (counterexample): an entry whose `content` field is present but
empty IS emitted by `load_utterances` (as a message with empty content),
because the code only tests key presence (`'content' in message`), not
non-emptiness.  This refutes the claim that present-but-empty entries are
not emitted. -/
theorem c5_counterexample :
    load_utterances [⟨[97], some []⟩] = some [⟨[97], []⟩] ∧
    (load_utterances [⟨[97], some []⟩]).map List.length = some 1 := by
  decide

/-- C5 (corrected claim): when loading succeeds, `load_utterances` emits a
message for a parsed entry if and only if the entry's `content` field is
present — emptiness of the content is irrelevant. -/
theorem c5_load_utterances_emits_iff_present (entries : List Entry) (msgs : List Msg)
    (h : load_utterances entries = some msgs) :
    msgs = entries.filterMap emitEntry := by
  induction entries generalizing msgs with
  | nil =>
    simp only [load_utterances, Option.some.injEq] at h
    simp [← h]
  | cons e rest ih =>
    cases hc : e.content with
    | none =>
      simp only [load_utterances, hc] at h
      simp only [List.filterMap_cons, emitEntry, hc]
      exact ih msgs h
    | some c =>
      simp only [load_utterances, hc] at h
      cases hs : clean_content e.sender_name with
      | none => rw [hs] at h; simp at h
      | some s =>
        rw [hs] at h
        simp only [Option.some_bind] at h
        cases hcc : clean_content c with
        | none => rw [hcc] at h; simp at h
        | some c' =>
          rw [hcc] at h
          simp only [Option.some_bind] at h
          cases hr : load_utterances rest with
          | none => rw [hr] at h; simp at h
          | some tail =>
            rw [hr] at h
            simp only [Option.map_some', Option.some.injEq] at h
            subst h
            simp only [List.filterMap_cons, emitEntry, hc, hs, hcc]
            rw [ih tail hr]

/-- Witness for C5's corrected theorem: a two-entry list where the first
entry has content and the second lacks the field; exactly one message is
emitted. -/
theorem c5_load_utterances_emits_iff_present_witness :
    load_utterances [⟨[97], some [104]⟩, ⟨[98], none⟩] = some [⟨[97], [104]⟩] ∧
    ([⟨[97], [104]⟩] : List Msg) =
      ([⟨[97], some [104]⟩, ⟨[98], none⟩] : List Entry).filterMap emitEntry :=
  ⟨by decide,
   c5_load_utterances_emits_iff_present [⟨[97], some [104]⟩, ⟨[98], none⟩]
     [⟨[97], [104]⟩] (by decide)⟩

/-- The start-of-utterance marker `"<u>"`. -/
def START_UTTERANCE : PyStr := [60, 117, 62]

/-- The end-of-utterance marker `"</u>"`. -/
def END_UTTERANCE : PyStr := [60, 47, 117, 62]

/-- The unknown-token symbol `"<unk>"`. -/
def UNKNOWN_TOKEN : PyStr := [60, 117, 110, 107, 62]

/-- The padding symbol `"<pad>"`. -/
def PAD_TOKEN : PyStr := [60, 112, 97, 100, 62]

/-- `wrap_utterance` from `data.py`: surround a token list with the start
and end markers. -/
def wrap_utterance (utterance : List PyStr) : List PyStr :=
  [START_UTTERANCE] ++ utterance ++ [END_UTTERANCE]

/-- `tokenize` from `data.py`: split the utterance into sentences with the
(external, parameterised) NLTK sentence tokenizer, word-tokenize each
sentence, truncate EACH sentence's token list to `maxNumTokens`, and
concatenate. -/
def tokenize (sentTok wordTok : PyStr → List PyStr) (maxNumTokens : Nat)
    (utterance : PyStr) : List PyStr :=
  ((sentTok utterance).map (fun s => (wordTok s).take maxNumTokens)).join

/-- `verify_utterance` from `data.py`: the token list is good when its
length is at most `maxNumTokens`. -/
def verify_utterance (maxNumTokens : Nat) (tokens : List PyStr) : Bool :=
  decide (tokens.length ≤ maxNumTokens)

/-- The module-level configuration constants of `data.py`
(`MAX_NUM_TOKENS`, `MAX_NUM_UTTERANCES`, `TARGET_USER`,
`VERIFY_UTTERANCES`, `REMOVE_SELF_REPLIES`), passed explicitly. -/
structure Config where
  maxNumTokens : Nat
  maxNumUtterances : Nat
  targetUser : Option PyStr
  verifyUtterances : Bool
  removeSelfReplies : Bool
deriving DecidableEq

/-- Python `str.lower` on whole strings (used for `TARGET_USER.lower()`). -/
def lowerStr (s : PyStr) : PyStr := s.map lowerCp

/-- The loop of `get_utterance_pairs`: walk the messages from the second
one on, keeping `prev` as the candidate input and `cur` as the candidate
target; stop when `maxNumUtterances` pairs have been collected; apply the
verification, target-user and self-reply filters in that order; on
success append the WRAPPED input and target token lists. -/
def pairLoop (cfg : Config) (sentTok wordTok : PyStr → List PyStr) :
    Msg → List Msg → List (List PyStr) → List (List PyStr) →
    List (List PyStr) × List (List PyStr)
  | _, [], inputs, targets => (inputs, targets)
  | prev, cur :: rest, inputs, targets =>
    if inputs.length = cfg.maxNumUtterances then (inputs, targets)
    else
      let input_tokens := tokenize sentTok wordTok cfg.maxNumTokens prev.content
      let target_tokens := tokenize sentTok wordTok cfg.maxNumTokens cur.content
      if cfg.verifyUtterances &&
          !(verify_utterance cfg.maxNumTokens input_tokens &&
            verify_utterance cfg.maxNumTokens target_tokens) then
        pairLoop cfg sentTok wordTok cur rest inputs targets
      else if (match cfg.targetUser with
               | some u => decide (cur.sender_name ≠ lowerStr u)
               | none => false) then
        pairLoop cfg sentTok wordTok cur rest inputs targets
      else if cfg.removeSelfReplies && decide (prev.sender_name = cur.sender_name) then
        pairLoop cfg sentTok wordTok cur rest inputs targets
      else
        pairLoop cfg sentTok wordTok cur rest
          (inputs ++ [wrap_utterance input_tokens])
          (targets ++ [wrap_utterance target_tokens])

/-- `get_utterance_pairs` from `data.py`, over an already-loaded message
list (the function itself calls `load_utterances`; see
`utterance_pipeline` for the composition). -/
def get_utterance_pairs (cfg : Config) (sentTok wordTok : PyStr → List PyStr)
    (utterances : List Msg) : List (List PyStr) × List (List PyStr) :=
  match utterances with
  | [] => ([], [])
  | m0 :: rest => pairLoop cfg sentTok wordTok m0 rest [] []

/-- The composition performed by `get_utterance_pairs` in the source: load
(and clean) the corpus entries, then pair them. -/
def utterance_pipeline (cfg : Config) (sentTok wordTok : PyStr → List PyStr)
    (entries : List Entry) : Option (List (List PyStr) × List (List PyStr)) :=
  (load_utterances entries).map (get_utterance_pairs cfg sentTok wordTok)

/-- A model of `nltk.sent_tokenize` on cleaned text containing no sentence
punctuation: the whole text is one sentence, and empty text has none. -/
def sentTokOne (s : PyStr) : List PyStr := if s = [] then [] else [s]

/-- A sentence-tokenizer environment in which every text splits into two
identical sentences, used to exhibit multi-sentence utterances. -/
def sentTokPair (s : PyStr) : List PyStr := [s, s]

/-- A model of `nltk.word_tokenize` on cleaned punctuation-free text:
split on spaces, dropping empty fragments. -/
def splitWS (s : PyStr) : List PyStr := (s.splitOn 32).filter (fun w => w ≠ [])

/-- The text `"a a … a"` with 25 single-letter words: a single sentence
that word-tokenizes to 25 tokens. -/
def sentence25 : PyStr := List.intercalate [32] (List.replicate 25 [97])

/-- C6 (as claimed): `tokenize` truncates per sentence before
concatenating: the total token count is the sum over sentences of
`min maxNumTokens (sentence word count)` — so each sentence contributes at
most `maxNumTokens` tokens — while a (two-sentence) utterance can
tokenize to more than `maxNumTokens` tokens in total. -/
theorem c6_tokenize_per_sentence_cap :
    (∀ (sentTok wordTok : PyStr → List PyStr) (m : Nat) (u : PyStr),
      (tokenize sentTok wordTok m u).length =
        ((sentTok u).map (fun s => min m (wordTok s).length)).sum) ∧
    20 < (tokenize sentTokPair splitWS 20 sentence25).length := by
  constructor
  · intro st wt m u
    rw [tokenize, List.length_join, List.map_map]
    have hf : (List.length ∘ fun s => List.take m (wt s)) = fun s => min m (wt s).length := by
      funext s
      simp [List.length_take]
    rw [hf]
  · decide

/-- The configuration of the C1 scenario: `MAX_NUM_TOKENS = 20`,
verification enabled. -/
def cfgC1 : Config := ⟨20, 250000, none, true, true⟩

/-- The messages of the C1 scenario: a 25-word single-sentence message
followed by a short reply from another sender. -/
def msgsC1 : List Msg := [⟨[97], sentence25⟩, ⟨[98], [104, 105]⟩]

/-- C1 (evaluation at the failing input): with `MAX_NUM_TOKENS = 20` and
verification enabled, a message whose single sentence word-tokenizes to 25
tokens is NOT excluded: `tokenize` truncates the sentence to 20 tokens
before `verify_utterance` sees it, the truncated list passes verification,
and the pair is kept (with the input silently truncated).  This
contradicts the claim and the source's own comment that such sentences are
"completely excluded from the training data". -/
theorem c1_truncated_sentence_pair_kept :
    get_utterance_pairs cfgC1 sentTokOne splitWS msgsC1 =
      ([wrap_utterance (List.replicate 20 [97])], [wrap_utterance [[104, 105]]]) := by
  decide

/-- The configuration of the C2 scenario: self-reply removal on, no target
user, verification off. -/
def cfgC2 : Config := ⟨20, 250000, none, false, true⟩

/-- The raw entries of the C2 scenario:
`[{A, "Hello!"}, {B, "Hi there."}, {A, "Hi there."}]`. -/
def entriesC2 : List Entry :=
  [⟨[65], some [72, 101, 108, 108, 111, 33]⟩,
   ⟨[66], some [72, 105, 32, 116, 104, 101, 114, 101, 46]⟩,
   ⟨[65], some [72, 105, 32, 116, 104, 101, 114, 101, 46]⟩]

/-- C2 (counterexample): in the claimed scenario the pipeline produces two
pairs, but the first pair's input is the WRAPPED token list
`wrap(["hello"])`, not the unwrapped `["hello"]` — the code wraps input
utterances as well as targets — refuting the claim as stated. -/
theorem c2_counterexample :
    utterance_pipeline cfgC2 sentTokOne splitWS entriesC2 =
      some ([wrap_utterance [[104, 101, 108, 108, 111]],
             wrap_utterance [[104, 105], [116, 104, 101, 114, 101]]],
            [wrap_utterance [[104, 105], [116, 104, 101, 114, 101]],
             wrap_utterance [[104, 105], [116, 104, 101, 114, 101]]]) ∧
    wrap_utterance [[104, 101, 108, 108, 111]] ≠ [[104, 101, 108, 108, 111]] := by
  decide

/-- C2 (corrected claim): the scenario yields exactly two pairs whose
inputs are `wrap(["hello"])` and `wrap(["hi","there"])` and whose targets
are both `wrap(["hi","there"])` — i.e. as claimed except that the input
side of each pair is wrapped with the start/end markers too. -/
theorem c2_scenario_two_pairs_wrapped :
    utterance_pipeline cfgC2 sentTokOne splitWS entriesC2 =
      some ([wrap_utterance [[104, 101, 108, 108, 111]],
             wrap_utterance [[104, 105], [116, 104, 101, 114, 101]]],
            [wrap_utterance [[104, 105], [116, 104, 101, 114, 101]],
             wrap_utterance [[104, 105], [116, 104, 101, 114, 101]]]) := by
  decide

/-- The configuration of the C9 counterexample: `TARGET_USER = "ab"`,
other filters off. -/
def cfgC9 : Config := ⟨20, 250000, some [97, 98], false, false⟩

/-- The raw entries of the C9 counterexample: the reply's ORIGINAL sender
is `"A.B"`, which cleans (lowercase + punctuation stripping) to `"ab"`. -/
def entriesC9 : List Entry :=
  [⟨[120], some [104, 105]⟩,
   ⟨[65, 46, 66], some [121, 111]⟩]

/-- C9 (counterexample): with `TARGET_USER = "ab"`, a pair IS produced
whose target message has original sender `"A.B"`, and the case-folded
original sender `"a.b"` differs from the case-folded target user `"ab"`:
the code compares the CLEANED sender (punctuation stripped) with
`TARGET_USER.lower()`, not the case-folded original sender.  This refutes
the claim as stated. -/
theorem c9_counterexample :
    utterance_pipeline cfgC9 sentTokOne splitWS entriesC9 =
      some ([wrap_utterance [[104, 105]]], [wrap_utterance [[121, 111]]]) ∧
    lowerStr [65, 46, 66] ≠ lowerStr [97, 98] := by
  decide

/-- Auxiliary: every target utterance produced by the pairing loop under a
set target user either was already in the accumulator or comes from a
message in the remaining list whose (cleaned) sender equals the lowercased
target user. -/
theorem pairLoop_target_sender (cfg : Config) (st wt : PyStr → List PyStr) (u : PyStr)
    (hu : cfg.targetUser = some u) :
    ∀ (rest : List Msg) (prev : Msg) (inputs targets : List (List PyStr)) (tgt : List PyStr),
      tgt ∈ (pairLoop cfg st wt prev rest inputs targets).2 →
      tgt ∈ targets ∨ ∃ m ∈ rest, m.sender_name = lowerStr u ∧
        tgt = wrap_utterance (tokenize st wt cfg.maxNumTokens m.content) := by
  intro rest
  induction rest with
  | nil =>
    intro prev inputs targets tgt h
    left
    simpa [pairLoop] using h
  | cons cur rest ih =>
    intro prev inputs targets tgt h
    simp only [pairLoop, hu] at h
    split at h
    · left
      simpa using h
    · split at h
      · rcases ih cur inputs targets tgt h with h' | ⟨m, hm, hs, he⟩
        · left; exact h'
        · right; exact ⟨m, List.mem_cons_of_mem _ hm, hs, he⟩
      · split at h
        · rcases ih cur inputs targets tgt h with h' | ⟨m, hm, hs, he⟩
          · left; exact h'
          · right; exact ⟨m, List.mem_cons_of_mem _ hm, hs, he⟩
        · next hcond =>
            split at h
            · rcases ih cur inputs targets tgt h with h' | ⟨m, hm, hs, he⟩
              · left; exact h'
              · right; exact ⟨m, List.mem_cons_of_mem _ hm, hs, he⟩
            · rcases ih cur _ _ tgt h with h' | ⟨m, hm, hs, he⟩
              · rcases List.mem_append.mp h' with h'' | h''
                · left; exact h''
                · right
                  refine ⟨cur, by simp, ?_, by simpa using h''⟩
                  simpa using hcond
              · right; exact ⟨m, List.mem_cons_of_mem _ hm, hs, he⟩

/-- C9 (corrected claim): when `targetUser` is set, every target utterance
produced by `get_utterance_pairs` comes from a message whose stored
(cleaned) sender equals the lowercased `targetUser` — the comparison is
against the sender as cleaned by `clean_content`, not the case-folded
original sender. -/
theorem c9_target_sender_matches_cleaned (cfg : Config) (st wt : PyStr → List PyStr)
    (msgs : List Msg) (u : PyStr) (tgt : List PyStr)
    (hu : cfg.targetUser = some u)
    (ht : tgt ∈ (get_utterance_pairs cfg st wt msgs).2) :
    ∃ m ∈ msgs, m.sender_name = lowerStr u ∧
      tgt = wrap_utterance (tokenize st wt cfg.maxNumTokens m.content) := by
  cases msgs with
  | nil => simp [get_utterance_pairs] at ht
  | cons m0 rest =>
    rcases pairLoop_target_sender cfg st wt u hu rest m0 [] [] tgt
        (by simpa [get_utterance_pairs] using ht) with h' | ⟨m, hm, hs, he⟩
    · simp at h'
    · exact ⟨m, List.mem_cons_of_mem _ hm, hs, he⟩

/-- The C9 scenario after loading: senders are already cleaned. -/
def msgsC9 : List Msg := [⟨[120], [104, 105]⟩, ⟨[97, 98], [121, 111]⟩]

/-- Witness for C9's corrected theorem at the concrete scenario: the one
produced target comes from the message whose cleaned sender is `"ab"`. -/
theorem c9_target_sender_matches_cleaned_witness :
    cfgC9.targetUser = some [97, 98] ∧
    wrap_utterance [[121, 111]] ∈ (get_utterance_pairs cfgC9 sentTokOne splitWS msgsC9).2 ∧
    ∃ m ∈ msgsC9, m.sender_name = lowerStr [97, 98] ∧
      wrap_utterance [[121, 111]] =
        wrap_utterance (tokenize sentTokOne splitWS cfgC9.maxNumTokens m.content) :=
  ⟨rfl, by decide,
   c9_target_sender_matches_cleaned cfgC9 sentTokOne splitWS msgsC9 [97, 98]
     (wrap_utterance [[121, 111]]) rfl (by decide)⟩

/-- Lookup in an association list modelling a Python dict: the first
binding of the key wins (keys are unique in all states the code builds). -/
def alookup {α β : Type} [DecidableEq α] : List (α × β) → α → Option β
  | [], _ => none
  | (k, v) :: rest, k' => if k = k' then some v else alookup rest k'

/-- Python dict assignment `d[k] = v`: update the value in place when the
key is present (keeping its position), otherwise append a new binding. -/
def dinsert {α β : Type} [DecidableEq α] : List (α × β) → α → β → List (α × β)
  | [], k, v => [(k, v)]
  | (k', v') :: rest, k, v =>
    if k' = k then (k, v) :: rest else (k', v') :: dinsert rest k v

/-- `get_unknown_token` from `data.py`: the `defaultdict` factory for the
token-to-number mapping, returning the reserved index 0. -/
def get_unknown_token : Nat := 0

/-- `defaultdict.__getitem__` on the token-to-number mapping: return the
stored value for a present key; for an absent key, insert the factory
value (0) under that key and return it.  Returns the value together with
the updated mapping. -/
def ddlookup (m : List (PyStr × Nat)) (t : PyStr) : Nat × List (PyStr × Nat) :=
  match alookup m t with
  | some v => (v, m)
  | none => (get_unknown_token, m ++ [(t, get_unknown_token)])

/-- Number of occurrences of a token in a token list. -/
def countOcc (t : PyStr) (l : List PyStr) : Nat :=
  (l.filter (fun u => decide (u = t))).length

/-- First occurrence of each element in encounter order, with fuel (each
step consumes at least one element, so fuel equal to the length always
suffices).  This is the iteration order of `collections.Counter`, i.e.
Python dict insertion order. -/
def distinctFirstLoop : Nat → List PyStr → List PyStr
  | _, [] => []
  | 0, _ :: _ => []
  | fuel + 1, t :: rest =>
    t :: distinctFirstLoop fuel (rest.filter (fun u => decide (u ≠ t)))

/-- The distinct tokens of a list, first occurrences first. -/
def distinctFirst (l : List PyStr) : List PyStr := distinctFirstLoop l.length l

/-- Stable insertion for descending-count order: place the token before
the first element with a count not larger than its own. -/
def insertByCount (cnt : PyStr → Nat) (t : PyStr) : List PyStr → List PyStr
  | [] => [t]
  | u :: rest => if cnt u ≤ cnt t then t :: u :: rest else u :: insertByCount cnt t rest

/-- Stable sort by descending count (the order of `Counter.most_common`). -/
def sortByCountDesc (cnt : PyStr → Nat) (l : List PyStr) : List PyStr :=
  l.foldr (insertByCount cnt) []

/-- `Counter(token for utterance in corpus for token in utterance)
.most_common(maxVocab)` — the distinct tokens of the corpus sorted by
descending frequency (stably, so ties keep first-encounter order),
truncated to the `maxVocab` most common. -/
def most_common (maxVocab : Nat) (corpus : List (List PyStr)) : List PyStr :=
  (sortByCountDesc (fun t => countOcc t corpus.join) (distinctFirst corpus.join)).take
    maxVocab

/-- The numbering loop of `get_word_map`:
`for i, token in enumerate(tokens, start=1): token_to_num[token] = i`. -/
def buildT2N : List PyStr → Nat → List (PyStr × Nat) → List (PyStr × Nat)
  | [], _, acc => acc
  | t :: rest, i, acc => buildT2N rest (i + 1) (dinsert acc t i)

/-- The inverting dict comprehension
`{ i: token for token, i in token_to_num.items() }` (later bindings of
the same number win, as in Python). -/
def invertMap (m : List (PyStr × Nat)) : List (Nat × PyStr) :=
  m.foldl (fun acc p => dinsert acc p.2 p.1) []

/-- `get_word_map` from `data.py`: number the most common corpus tokens
from 1, reserving 0 for the unknown token; build the inverse mapping and
re-point 0 at the unknown token. -/
def get_word_map (maxVocab : Nat) (corpus : List (List PyStr)) :
    List (PyStr × Nat) × List (Nat × PyStr) :=
  let tokens := most_common maxVocab corpus
  let token_to_num := buildT2N tokens 1 (dinsert [] UNKNOWN_TOKEN get_unknown_token)
  let num_to_token := dinsert (invertMap token_to_num) 0 UNKNOWN_TOKEN
  (token_to_num, num_to_token)

/-- The `TokenMapper` state: the two directional mappings. -/
structure TokenMapper where
  tok2num : List (PyStr × Nat)
  num2tok : List (Nat × PyStr)
deriving DecidableEq

/-- `TokenMapper.add_token`: if the token is absent, bind it to
`len(num2tok)` in both directions; otherwise do nothing. -/
def TokenMapper.add_token (s : TokenMapper) (t : PyStr) : TokenMapper :=
  if (alookup s.tok2num t).isSome then s
  else ⟨dinsert s.tok2num t s.num2tok.length, dinsert s.num2tok s.num2tok.length t⟩

/-- `TokenMapper.__init__`: build the word map, then add the special
tokens via `add_token`. -/
def TokenMapper.init (maxVocab : Nat) (utterances : List (List PyStr)) : TokenMapper :=
  let m := get_word_map maxVocab utterances
  [START_UTTERANCE, END_UTTERANCE, UNKNOWN_TOKEN].foldl TokenMapper.add_token ⟨m.1, m.2⟩

/-- `filter_unknown` from `data.py`: compute, pair by pair, the utterances
with unknown tokens removed and non-empty results kept — and then return
the ORIGINAL argument lists (the computed lists are discarded, exactly as
in the source). -/
def filter_unknown (input_utterances target_utterances : List (List PyStr))
    (input_mapper target_mapper : TokenMapper) :
    List (List PyStr) × List (List PyStr) :=
  let _updated :=
    (input_utterances.zip target_utterances).filterMap (fun p =>
      let iu := p.1.filter (fun tok => (alookup input_mapper.tok2num tok).isSome)
      let tu := p.2.filter (fun tok => (alookup target_mapper.tok2num tok).isSome)
      if iu ≠ [] ∧ tu ≠ [] then some (iu, tu) else none)
  (input_utterances, target_utterances)

/-- C10 (as claimed): `filter_unknown` returns its input and target
utterance lists unchanged; the filtered lists it computes are never
reflected in the return value. -/
theorem c10_filter_unknown_returns_arguments (iu tu : List (List PyStr))
    (m1 m2 : TokenMapper) : filter_unknown iu tu m1 m2 = (iu, tu) := rfl

/-- Looking a key up right after inserting it yields the inserted value. -/
theorem alookup_dinsert_self {α β : Type} [DecidableEq α] (m : List (α × β)) (k : α) (v : β) :
    alookup (dinsert m k v) k = some v := by
  induction m with
  | nil => simp [dinsert, alookup]
  | cons p rest ih =>
    obtain ⟨k', v'⟩ := p
    by_cases h : k' = k
    · simp [dinsert, h, alookup]
    · simp [dinsert, h, alookup, ih]

/-- C8 (as claimed): `add_token` is idempotent — adding the same token
twice leaves the mapper in exactly the state reached after adding it
once (an already-present token is a no-op). -/
theorem c8_add_token_idempotent (s : TokenMapper) (t : PyStr) :
    (s.add_token t).add_token t = s.add_token t := by
  by_cases h : (alookup s.tok2num t).isSome
  · simp [TokenMapper.add_token, h]
  · simp [TokenMapper.add_token, h, alookup_dinsert_self]

/-- Looking up a key different from the inserted one is unchanged by the
insertion. -/
theorem alookup_dinsert_ne {α β : Type} [DecidableEq α] (m : List (α × β)) (k k' : α)
    (v : β) (h : k' ≠ k) : alookup (dinsert m k v) k' = alookup m k' := by
  induction m with
  | nil => simp [dinsert, alookup, Ne.symm h]
  | cons p rest ih =>
    obtain ⟨k'', v''⟩ := p
    by_cases h2 : k'' = k
    · subst h2
      simp [dinsert, alookup, Ne.symm h]
    · simp [dinsert, h2, alookup, ih]

/-- A successful lookup comes from a binding in the list. -/
theorem alookup_mem {α β : Type} [DecidableEq α] (m : List (α × β)) (k : α) (v : β)
    (h : alookup m k = some v) : (k, v) ∈ m := by
  induction m with
  | nil => simp [alookup] at h
  | cons p rest ih =>
    obtain ⟨k', v'⟩ := p
    by_cases h2 : k' = k
    · subst h2
      simp [alookup] at h
      simp [h]
    · simp [alookup, h2] at h
      exact List.mem_cons_of_mem _ (ih h)

/-- Every binding of the insertion result is the new binding or an old one. -/
theorem mem_dinsert {α β : Type} [DecidableEq α] (m : List (α × β)) (k : α) (v : β)
    (p : α × β) (h : p ∈ dinsert m k v) : p = (k, v) ∨ p ∈ m := by
  induction m with
  | nil =>
    simp [dinsert] at h
    simp [h]
  | cons q rest ih =>
    obtain ⟨k', v'⟩ := q
    by_cases h2 : k' = k
    · simp [dinsert, h2] at h
      rcases h with h | h
      · left; simp [h]
      · right; simp [h]
    · simp [dinsert, h2] at h
      rcases h with h | h
      · right; simp [h]
      · rcases ih h with h3 | h3
        · left; exact h3
        · right; simp [h3]

/-- Inserting an absent key appends the binding at the end. -/
theorem dinsert_eq_append {α β : Type} [DecidableEq α] (m : List (α × β)) (k : α) (v : β)
    (h : alookup m k = none) : dinsert m k v = m ++ [(k, v)] := by
  induction m with
  | nil => simp [dinsert]
  | cons q rest ih =>
    obtain ⟨k', v'⟩ := q
    by_cases h2 : k' = k
    · subst h2
      simp [alookup] at h
    · simp [alookup, h2] at h
      simp [dinsert, h2, ih h]

/-- A lookup fails exactly when the key is absent from the key list. -/
theorem alookup_eq_none_iff {α β : Type} [DecidableEq α] (m : List (α × β)) (k : α) :
    alookup m k = none ↔ k ∉ m.map Prod.fst := by
  induction m with
  | nil => simp [alookup]
  | cons q rest ih =>
    obtain ⟨k', v'⟩ := q
    by_cases h2 : k' = k
    · subst h2
      simp [alookup]
    · simp [alookup, h2, ih, Ne.symm h2]

/-- With distinct keys, every binding is found by lookup. -/
theorem alookup_of_mem {α β : Type} [DecidableEq α] (m : List (α × β))
    (hkeys : (m.map Prod.fst).Nodup) (k : α) (v : β) (h : (k, v) ∈ m) :
    alookup m k = some v := by
  induction m with
  | nil => simp at h
  | cons q rest ih =>
    obtain ⟨k', v'⟩ := q
    simp only [List.map_cons, List.nodup_cons] at hkeys
    rcases List.mem_cons.mp h with h1 | h1
    · obtain ⟨hk, hv⟩ := Prod.mk.injEq .. ▸ h1
      subst hk
      subst hv
      simp [alookup]
    · have hk' : k' ≠ k := by
        intro he
        subst he
        exact hkeys.1 (List.mem_map.mpr ⟨(k', v), h1, rfl⟩)
      simp only [alookup, if_neg hk']
      exact ih hkeys.2 h1

/-- Inserting a present key leaves the length unchanged. -/
theorem length_dinsert_some {α β : Type} [DecidableEq α] (m : List (α × β)) (k : α)
    (v : β) (h : (alookup m k).isSome) : (dinsert m k v).length = m.length := by
  induction m with
  | nil => simp [alookup] at h
  | cons q rest ih =>
    obtain ⟨k', v'⟩ := q
    by_cases h2 : k' = k
    · simp [dinsert, h2]
    · simp only [alookup, if_neg h2] at h
      simp [dinsert, h2, ih h]

/-- Inserting a fresh value into a list with distinct values keeps the
values distinct. -/
theorem valsNodup_dinsert {α β : Type} [DecidableEq α] (m : List (α × β)) (k : α) (v : β)
    (hv : ∀ p ∈ m, p.2 ≠ v) (hm : (m.map Prod.snd).Nodup) :
    ((dinsert m k v).map Prod.snd).Nodup := by
  induction m with
  | nil => simp [dinsert]
  | cons q rest ih =>
    obtain ⟨k', v'⟩ := q
    simp only [List.map_cons, List.nodup_cons] at hm
    by_cases h2 : k' = k
    · simp only [dinsert, if_pos h2, List.map_cons, List.nodup_cons]
      refine ⟨fun hv' => ?_, hm.2⟩
      obtain ⟨p, hp, he⟩ := List.mem_map.mp hv'
      exact hv p (List.mem_cons_of_mem _ hp) he
    · simp only [dinsert, if_neg h2, List.map_cons, List.nodup_cons]
      constructor
      · intro hv'
        obtain ⟨p, hp, he⟩ := List.mem_map.mp hv'
        rcases mem_dinsert _ _ _ p hp with h3 | h3
        · subst h3
          exact hv (k', v') (by simp) (by simpa using he.symm)
        · exact hm.1 (List.mem_map.mpr ⟨p, h3, he⟩)
      · exact ih (fun p hp => hv p (List.mem_cons_of_mem _ hp)) hm.2

/-- With distinct values, looking an entry's value up in the swapped list
recovers its key. -/
theorem alookup_map_swap {α β : Type} [DecidableEq α] [DecidableEq β] (m : List (α × β))
    (hvals : (m.map Prod.snd).Nodup) (k : α) (v : β) (hmem : (k, v) ∈ m) :
    alookup (m.map Prod.swap) v = some k := by
  induction m with
  | nil => simp at hmem
  | cons q rest ih =>
    obtain ⟨k', v'⟩ := q
    simp only [List.map_cons, List.nodup_cons] at hvals
    rcases List.mem_cons.mp hmem with h1 | h1
    · obtain ⟨hk, hv⟩ := Prod.mk.injEq .. ▸ h1
      subst hk
      subst hv
      simp [alookup, Prod.swap]
    · have hvne : v' ≠ v := by
        intro he
        subst he
        exact hvals.1 (List.mem_map.mpr ⟨(k, v'), h1, rfl⟩)
      simp only [List.map_cons, Prod.swap, alookup, if_neg hvne]
      exact ih hvals.2 h1

/-- Lookups in an appended list fall through to the second part when they
fail in the first. -/
theorem alookup_append_none {α β : Type} [DecidableEq α] (a b : List (α × β)) (k : α)
    (ha : alookup a k = none) : alookup (a ++ b) k = alookup b k := by
  induction a with
  | nil => simp
  | cons q rest ih =>
    obtain ⟨k', v'⟩ := q
    by_cases h2 : k' = k
    · simp [alookup, h2] at ha
    · simp only [alookup, if_neg h2] at ha
      simp [alookup, if_neg h2, ih ha]

/-- Auxiliary: the fold building the inverse mapping appends one swapped
binding per entry when the values are distinct and fresh for the
accumulator. -/
theorem invertFold_eq (m : List (PyStr × Nat)) :
    ∀ acc : List (Nat × PyStr),
      (∀ p ∈ m, alookup acc p.2 = none) → (m.map Prod.snd).Nodup →
      m.foldl (fun acc p => dinsert acc p.2 p.1) acc = acc ++ m.map Prod.swap := by
  induction m with
  | nil => intro acc _ _; simp
  | cons q rest ih =>
    intro acc hnone hnodup
    obtain ⟨k, v⟩ := q
    simp only [List.map_cons, List.nodup_cons] at hnodup
    simp only [List.foldl_cons]
    rw [dinsert_eq_append _ _ _ (hnone (k, v) (by simp))]
    rw [ih (acc ++ [(v, k)]) ?fresh hnodup.2]
    · simp [Prod.swap]
    case fresh =>
      intro p hp
      rw [alookup_append_none _ _ _ (hnone p (List.mem_cons_of_mem _ hp))]
      have hpv : v ≠ p.2 := by
        intro he
        exact hnodup.1 (List.mem_map.mpr ⟨p, hp, he.symm⟩)
      simp [alookup, hpv]

/-- When the values of the mapping are distinct, the inverting dict
comprehension is just the entrywise swap. -/
theorem invertMap_eq_map_swap (m : List (PyStr × Nat))
    (hvals : (m.map Prod.snd).Nodup) : invertMap m = m.map Prod.swap := by
  have := invertFold_eq m [] (by intro p _; rfl) hvals
  simpa [invertMap] using this

/-- Elements produced by the first-occurrence loop come from its input. -/
theorem mem_distinctFirstLoop (fuel : Nat) :
    ∀ (l : List PyStr) (t : PyStr), t ∈ distinctFirstLoop fuel l → t ∈ l := by
  induction fuel with
  | zero =>
    intro l t h
    cases l with
    | nil => simpa [distinctFirstLoop] using h
    | cons a rest => simp [distinctFirstLoop] at h
  | succ n ih =>
    intro l t h
    cases l with
    | nil => simp [distinctFirstLoop] at h
    | cons a rest =>
      simp only [distinctFirstLoop, List.mem_cons] at h
      rcases h with h | h
      · simp [h]
      · exact List.mem_cons_of_mem _ (List.mem_filter.mp (ih _ t h)).1

/-- The first-occurrence loop never repeats an element. -/
theorem nodup_distinctFirstLoop (fuel : Nat) :
    ∀ l : List PyStr, (distinctFirstLoop fuel l).Nodup := by
  induction fuel with
  | zero =>
    intro l
    cases l <;> simp [distinctFirstLoop]
  | succ n ih =>
    intro l
    cases l with
    | nil => simp [distinctFirstLoop]
    | cons a rest =>
      simp only [distinctFirstLoop]
      rw [List.nodup_cons]
      refine ⟨fun hmem => ?_, ih _⟩
      have := (List.mem_filter.mp (mem_distinctFirstLoop n _ a hmem)).2
      simp at this

/-- Stable insertion is a permutation of consing. -/
theorem insertByCount_perm (cnt : PyStr → Nat) (t : PyStr) (l : List PyStr) :
    List.Perm (insertByCount cnt t l) (t :: l) := by
  induction l with
  | nil => simp [insertByCount]
  | cons u rest ih =>
    simp only [insertByCount]
    split
    · exact List.Perm.refl _
    · exact (ih.cons u).trans (List.Perm.swap t u rest)

/-- The stable descending-count sort permutes its input. -/
theorem sortByCountDesc_perm (cnt : PyStr → Nat) (l : List PyStr) :
    List.Perm (sortByCountDesc cnt l) l := by
  induction l with
  | nil => simp [sortByCountDesc]
  | cons a rest ih =>
    simp only [sortByCountDesc, List.foldr_cons]
    exact (insertByCount_perm cnt a _).trans (ih.cons a)

/-- The most-common token list contains no duplicates. -/
theorem nodup_most_common (maxV : Nat) (corpus : List (List PyStr)) :
    (most_common maxV corpus).Nodup := by
  unfold most_common
  refine List.Nodup.sublist (List.take_sublist _ _) ?_
  exact ((sortByCountDesc_perm _ _).nodup_iff).mpr (nodup_distinctFirstLoop _ _)

/-- Every most-common token occurs in the corpus. -/
theorem mem_most_common (maxV : Nat) (corpus : List (List PyStr)) (t : PyStr)
    (h : t ∈ most_common maxV corpus) : t ∈ corpus.join := by
  unfold most_common at h
  have h1 := List.mem_of_mem_take h
  have h2 := (sortByCountDesc_perm _ _).mem_iff.mp h1
  exact mem_distinctFirstLoop _ _ _ h2

/-- Tokens not in the numbering list keep their accumulator binding. -/
theorem buildT2N_alookup_notMem :
    ∀ (rest : List PyStr) (i : Nat) (acc : List (PyStr × Nat)) (t : PyStr),
      t ∉ rest → alookup (buildT2N rest i acc) t = alookup acc t := by
  intro rest
  induction rest with
  | nil => intro i acc t _; rfl
  | cons a rest ih =>
    intro i acc t h
    simp only [List.mem_cons, not_or] at h
    simp only [buildT2N]
    rw [ih _ _ t h.2]
    exact alookup_dinsert_ne _ _ _ _ h.1

/-- The keys after an insertion: unchanged for a present key, the new key
appended for an absent one. -/
theorem keys_dinsert {α β : Type} [DecidableEq α] (m : List (α × β)) (k : α) (v : β) :
    (dinsert m k v).map Prod.fst =
      if (alookup m k).isSome then m.map Prod.fst else m.map Prod.fst ++ [k] := by
  induction m with
  | nil => simp [dinsert, alookup]
  | cons q rest ih =>
    obtain ⟨k', v'⟩ := q
    by_cases h2 : k' = k
    · subst h2
      simp [dinsert, alookup]
    · by_cases h3 : (alookup rest k).isSome
      · simp [dinsert, h2, alookup, ih, h3]
      · simp [dinsert, h2, alookup, ih, h3]

/-- Invariant of the numbering loop of `get_word_map`, starting from an
accumulator whose bindings all have values below the next index: keys and
values stay distinct, only the unknown token can be bound to 0, every
other key has a positive index, all values stay below the next index, and
the length tracks the index (offset by one when the unknown token has
been renumbered away from 0, which happens exactly when it occurs in the
token list). -/
theorem buildT2N_inv :
    ∀ (rest : List PyStr) (i : Nat) (acc : List (PyStr × Nat)),
      1 ≤ i →
      rest.Nodup →
      (∀ t ∈ rest, t ≠ UNKNOWN_TOKEN → alookup acc t = none) →
      (UNKNOWN_TOKEN ∈ rest → alookup acc UNKNOWN_TOKEN = some 0) →
      (acc.map Prod.fst).Nodup →
      (acc.map Prod.snd).Nodup →
      (∀ p ∈ acc, p.2 < i) →
      (∀ p ∈ acc, p.1 ≠ UNKNOWN_TOKEN → 1 ≤ p.2) →
      (∀ p ∈ acc, p.2 = 0 → p.1 = UNKNOWN_TOKEN) →
      (acc.length + (if alookup acc UNKNOWN_TOKEN = some 0 then 0 else 1) = i) →
      ((buildT2N rest i acc).map Prod.fst).Nodup ∧
      ((buildT2N rest i acc).map Prod.snd).Nodup ∧
      (∀ p ∈ buildT2N rest i acc, p.2 < i + rest.length) ∧
      (∀ p ∈ buildT2N rest i acc, p.1 ≠ UNKNOWN_TOKEN → 1 ≤ p.2) ∧
      (∀ p ∈ buildT2N rest i acc, p.2 = 0 → p.1 = UNKNOWN_TOKEN) ∧
      ((buildT2N rest i acc).length +
        (if alookup (buildT2N rest i acc) UNKNOWN_TOKEN = some 0 then 0 else 1) =
          i + rest.length) := by
  intro rest
  induction rest with
  | nil =>
    intro i acc h1i _ _ _ hkeys hvals hlt hpos hzero hlen
    refine ⟨hkeys, hvals, ?_, hpos, hzero, ?_⟩
    · intro p hp
      simpa using hlt p hp
    · simpa using hlen
  | cons t rest ih =>
    intro i acc h1i hnodup hfresh hunk hkeys hvals hlt hpos hzero hlen
    rw [List.nodup_cons] at hnodup
    have hfresh' : ∀ t' ∈ rest, t' ≠ UNKNOWN_TOKEN → alookup (dinsert acc t i) t' = none := by
      intro t' ht' htu
      have hne : t' ≠ t := fun he => hnodup.1 (he ▸ ht')
      rw [alookup_dinsert_ne _ _ _ _ hne]
      exact hfresh t' (List.mem_cons_of_mem _ ht') htu
    have hunk' : UNKNOWN_TOKEN ∈ rest → alookup (dinsert acc t i) UNKNOWN_TOKEN = some 0 := by
      intro hu
      have hne : UNKNOWN_TOKEN ≠ t := fun he => hnodup.1 (he ▸ hu)
      rw [alookup_dinsert_ne _ _ _ _ hne]
      exact hunk (List.mem_cons_of_mem _ hu)
    have hkeys' : ((dinsert acc t i).map Prod.fst).Nodup := by
      rw [keys_dinsert]
      by_cases hs : (alookup acc t).isSome
      · simpa [hs] using hkeys
      · have ht : t ∉ acc.map Prod.fst := by
          rw [← alookup_eq_none_iff]
          cases halk : alookup acc t with
          | none => rfl
          | some v => simp [halk] at hs
        simp only [hs, if_false]
        refine ((List.perm_append_singleton t _).nodup_iff).mpr ?_
        exact List.nodup_cons.mpr ⟨ht, hkeys⟩
    have hvals' : ((dinsert acc t i).map Prod.snd).Nodup :=
      valsNodup_dinsert acc t i (fun p hp => Nat.ne_of_lt (hlt p hp)) hvals
    have hlt' : ∀ p ∈ dinsert acc t i, p.2 < i + 1 := by
      intro p hp
      rcases mem_dinsert _ _ _ p hp with he | hm
      · simp [he]
      · have := hlt p hm
        omega
    have hpos' : ∀ p ∈ dinsert acc t i, p.1 ≠ UNKNOWN_TOKEN → 1 ≤ p.2 := by
      intro p hp hpt
      rcases mem_dinsert _ _ _ p hp with he | hm
      · simp [he]
        omega
      · exact hpos p hm hpt
    have hzero' : ∀ p ∈ dinsert acc t i, p.2 = 0 → p.1 = UNKNOWN_TOKEN := by
      intro p hp hp0
      rcases mem_dinsert _ _ _ p hp with he | hm
      · exfalso
        rw [he] at hp0
        simp at hp0
        omega
      · exact hzero p hm hp0
    have hlen' : (dinsert acc t i).length +
        (if alookup (dinsert acc t i) UNKNOWN_TOKEN = some 0 then 0 else 1) = i + 1 := by
      by_cases ht : t = UNKNOWN_TOKEN
      · subst ht
        have h0 : alookup acc UNKNOWN_TOKEN = some 0 := hunk (by simp)
        have hlens : (dinsert acc UNKNOWN_TOKEN i).length = acc.length :=
          length_dinsert_some _ _ _ (by simp [h0])
        have hsome : alookup (dinsert acc UNKNOWN_TOKEN i) UNKNOWN_TOKEN = some i :=
          alookup_dinsert_self _ _ _
        rw [hlens, hsome, if_neg (by simp; omega)]
        rw [h0, if_pos rfl] at hlen
        omega
      · have hnone : alookup acc t = none := hfresh t (by simp) ht
        have happ : dinsert acc t i = acc ++ [(t, i)] := dinsert_eq_append _ _ _ hnone
        have hflag : alookup (dinsert acc t i) UNKNOWN_TOKEN = alookup acc UNKNOWN_TOKEN :=
          alookup_dinsert_ne _ _ _ _ (fun he => ht he.symm)
        rw [hflag, happ, List.length_append]
        by_cases hf : alookup acc UNKNOWN_TOKEN = some 0
        · rw [if_pos hf]
          rw [if_pos hf] at hlen
          simp
          omega
        · rw [if_neg hf]
          rw [if_neg hf] at hlen
          simp
          omega
    obtain ⟨A, B, C, D, E, F⟩ :=
      ih (i + 1) (dinsert acc t i) (by omega) hnodup.2 hfresh' hunk' hkeys' hvals'
        hlt' hpos' hzero' hlen'
    simp only [buildT2N]
    refine ⟨A, B, ?_, D, E, ?_⟩
    · intro p hp
      have := C p hp
      simp only [List.length_cons]
      omega
    · have harith : i + (t :: rest).length = (i + 1) + rest.length := by
        simp only [List.length_cons]
        omega
      rw [harith]
      exact F

/-- The facts `buildT2N_inv` yields for the token-to-number mapping built
by `get_word_map`: distinct keys and values, only the unknown token can be
bound to 0, all other keys have positive indices, all indices are at most
the token count, and the length tracks whether the unknown token was
renumbered. -/
theorem get_word_map_t2n_facts (maxV : Nat) (corpus : List (List PyStr)) :
    (((get_word_map maxV corpus).1).map Prod.fst).Nodup ∧
    (((get_word_map maxV corpus).1).map Prod.snd).Nodup ∧
    (∀ p ∈ (get_word_map maxV corpus).1, p.2 < 1 + (most_common maxV corpus).length) ∧
    (∀ p ∈ (get_word_map maxV corpus).1, p.1 ≠ UNKNOWN_TOKEN → 1 ≤ p.2) ∧
    (∀ p ∈ (get_word_map maxV corpus).1, p.2 = 0 → p.1 = UNKNOWN_TOKEN) ∧
    ((get_word_map maxV corpus).1.length +
      (if alookup (get_word_map maxV corpus).1 UNKNOWN_TOKEN = some 0 then 0 else 1) =
        1 + (most_common maxV corpus).length) := by
  have h := buildT2N_inv (most_common maxV corpus) 1 [(UNKNOWN_TOKEN, 0)]
    (Nat.le_refl 1)
    (nodup_most_common maxV corpus)
    (by intro t' _ htu; simp [alookup, Ne.symm htu])
    (by intro _; simp [alookup])
    (by simp)
    (by simp)
    (by intro p hp; simp at hp; simp [hp])
    (by intro p hp hne; simp at hp; rw [hp] at hne; simp at hne)
    (by intro p hp _; simp at hp; simp [hp])
    (by simp [alookup])
  obtain ⟨A, B, C, D, E, F⟩ := h
  exact ⟨A, B, C, D, E, F⟩

/-- Round trip at construction: every non-unknown binding of the
token-to-number mapping is inverted by the number-to-token mapping. -/
theorem get_word_map_roundtrip (maxV : Nat) (corpus : List (List PyStr)) (t : PyStr)
    (v : Nat) (ht : t ≠ UNKNOWN_TOKEN)
    (hl : alookup (get_word_map maxV corpus).1 t = some v) :
    alookup (get_word_map maxV corpus).2 v = some t := by
  obtain ⟨hkeys, hvals, hlt, hpos, hzero, hlen⟩ := get_word_map_t2n_facts maxV corpus
  have hmem : (t, v) ∈ (get_word_map maxV corpus).1 := alookup_mem _ _ _ hl
  have hv0 : v ≠ 0 := fun he => ht (hzero (t, v) hmem he)
  have hswap := alookup_map_swap _ hvals t v hmem
  show alookup (dinsert (invertMap (get_word_map maxV corpus).1) 0 UNKNOWN_TOKEN) v = some t
  rw [alookup_dinsert_ne _ _ _ _ hv0, invertMap_eq_map_swap _ hvals]
  exact hswap

/-- Every key of the number-to-token mapping built by `get_word_map` is
below the mapping's length (so `len(num2tok)` is always a fresh key for
`add_token`). -/
theorem get_word_map_n2t_bound (maxV : Nat) (corpus : List (List PyStr)) :
    ∀ p ∈ (get_word_map maxV corpus).2, p.1 < (get_word_map maxV corpus).2.length := by
  obtain ⟨hkeys, hvals, hlt, hpos, hzero, hlen⟩ := get_word_map_t2n_facts maxV corpus
  have hswapdef : (get_word_map maxV corpus).2 =
      dinsert ((get_word_map maxV corpus).1.map Prod.swap) 0 UNKNOWN_TOKEN := by
    show dinsert (invertMap (get_word_map maxV corpus).1) 0 UNKNOWN_TOKEN = _
    rw [invertMap_eq_map_swap _ hvals]
  by_cases hf : alookup (get_word_map maxV corpus).1 UNKNOWN_TOKEN = some 0
  · have hmm0 : (UNKNOWN_TOKEN, 0) ∈ (get_word_map maxV corpus).1 := alookup_mem _ _ _ hf
    have h0 : (alookup ((get_word_map maxV corpus).1.map Prod.swap) 0).isSome := by
      rw [alookup_map_swap _ hvals _ _ hmm0]
      rfl
    have hlen2 : (get_word_map maxV corpus).2.length = (get_word_map maxV corpus).1.length := by
      rw [hswapdef, length_dinsert_some _ _ _ h0, List.length_map]
    have hMlen : (get_word_map maxV corpus).1.length = 1 + (most_common maxV corpus).length := by
      rw [if_pos hf] at hlen
      omega
    intro p hp
    rw [hswapdef] at hp
    rw [hlen2, hMlen]
    rcases mem_dinsert _ _ _ p hp with he | hm
    · rw [he]
      simp
    · obtain ⟨q, hq, he⟩ := List.mem_map.mp hm
      have hb := hlt q hq
      rw [← he]
      simpa [Prod.swap] using hb
  · have h0 : alookup ((get_word_map maxV corpus).1.map Prod.swap) 0 = none := by
      cases h00 : alookup ((get_word_map maxV corpus).1.map Prod.swap) 0 with
      | none => rfl
      | some t' =>
        exfalso
        have hmem := alookup_mem _ _ _ h00
        obtain ⟨q, hq, he⟩ := List.mem_map.mp hmem
        have hq0 : q.2 = 0 := by
          have := congrArg Prod.fst he
          simpa [Prod.swap] using this
        have hqU : q.1 = UNKNOWN_TOKEN := hzero q hq hq0
        refine hf ?_
        have := alookup_of_mem _ hkeys q.1 q.2 (by simpa using hq)
        rw [hqU, hq0] at this
        exact this
    have hlen2 : (get_word_map maxV corpus).2.length =
        (get_word_map maxV corpus).1.length + 1 := by
      rw [hswapdef, dinsert_eq_append _ _ _ h0]
      simp
    have hMlen : (get_word_map maxV corpus).1.length = (most_common maxV corpus).length := by
      rw [if_neg hf] at hlen
      omega
    intro p hp
    rw [hswapdef] at hp
    rw [hlen2, hMlen]
    rcases mem_dinsert _ _ _ p hp with he | hm
    · rw [he]
      simp
    · obtain ⟨q, hq, he⟩ := List.mem_map.mp hm
      have hb := hlt q hq
      rw [← he]
      simp [Prod.swap]
      omega

/-- Invariant of reachable `TokenMapper` states: the number-to-token
mapping inverts every non-unknown binding of the token-to-number mapping,
and every key of the number-to-token mapping is below its length. -/
def MapperInv (s : TokenMapper) : Prop :=
  (∀ t v, t ≠ UNKNOWN_TOKEN → alookup s.tok2num t = some v →
    alookup s.num2tok v = some t) ∧
  (∀ p ∈ s.num2tok, p.1 < s.num2tok.length)

/-- `add_token` preserves the mapper invariant. -/
theorem mapperInv_add_token (s : TokenMapper) (t : PyStr) (h : MapperInv s) :
    MapperInv (s.add_token t) := by
  obtain ⟨hrt, hbound⟩ := h
  by_cases hp : (alookup s.tok2num t).isSome
  · simpa [TokenMapper.add_token, hp] using ⟨hrt, hbound⟩
  · have hnone : alookup s.num2tok s.num2tok.length = none := by
      rw [alookup_eq_none_iff]
      intro hmemk
      obtain ⟨q, hq, he⟩ := List.mem_map.mp hmemk
      have := hbound q hq
      omega
    have hlen2 : (dinsert s.num2tok s.num2tok.length t).length = s.num2tok.length + 1 := by
      rw [dinsert_eq_append _ _ _ hnone]
      simp
    constructor
    · intro t' v ht' hl
      simp [TokenMapper.add_token, hp] at hl ⊢
      by_cases he : t' = t
      · subst he
        rw [alookup_dinsert_self] at hl
        obtain rfl : s.num2tok.length = v := by simpa using hl
        exact alookup_dinsert_self _ _ _
      · rw [alookup_dinsert_ne _ _ _ _ he] at hl
        have hold := hrt t' v ht' hl
        have hku : v < s.num2tok.length := hbound (v, t') (alookup_mem _ _ _ hold)
        rw [alookup_dinsert_ne _ _ _ _ (Nat.ne_of_lt hku)]
        exact hold
    · intro p hp'
      simp [TokenMapper.add_token, hp] at hp' ⊢
      rw [hlen2]
      rcases mem_dinsert _ _ _ p hp' with he | hm
      · rw [he]
        simp
      · have := hbound p hm
        omega

/-- Folding `add_token` over any token list preserves the invariant. -/
theorem mapperInv_foldl (l : List PyStr) :
    ∀ s : TokenMapper, MapperInv s → MapperInv (l.foldl TokenMapper.add_token s) := by
  induction l with
  | nil => intro s h; exact h
  | cons t rest ih =>
    intro s h
    exact ih _ (mapperInv_add_token s t h)

/-- The invariant holds of the state `TokenMapper.__init__` builds. -/
theorem mapperInv_init (maxV : Nat) (utterances : List (List PyStr)) :
    MapperInv (TokenMapper.init maxV utterances) := by
  refine mapperInv_foldl _ _ ⟨?_, ?_⟩
  · intro t v ht hl
    exact get_word_map_roundtrip maxV utterances t v ht hl
  · exact get_word_map_n2t_bound maxV utterances

/-- C7 (as claimed): in any mapper state reachable from
`TokenMapper.__init__` (the word map of any corpus followed by the special
tokens) by any further sequence of `add_token` calls, looking up a
non-unknown token's index and mapping it back yields the token again. -/
theorem c7_roundtrip (maxV : Nat) (corpus : List (List PyStr)) (extra : List PyStr)
    (t : PyStr) (v : Nat) (ht : t ≠ UNKNOWN_TOKEN)
    (hl : alookup (extra.foldl TokenMapper.add_token
      (TokenMapper.init maxV corpus)).tok2num t = some v) :
    alookup (extra.foldl TokenMapper.add_token
      (TokenMapper.init maxV corpus)).num2tok v = some t :=
  (mapperInv_foldl extra _ (mapperInv_init maxV corpus)).1 t v ht hl

/-- Witness for C7 at a concrete state: the empty corpus, no extra
additions; the start marker was added by `__init__` with index 1 and maps
back to itself. -/
theorem c7_roundtrip_witness :
    START_UTTERANCE ≠ UNKNOWN_TOKEN ∧
    alookup (([] : List PyStr).foldl TokenMapper.add_token
      (TokenMapper.init 5000 [])).tok2num START_UTTERANCE = some 1 ∧
    alookup (([] : List PyStr).foldl TokenMapper.add_token
      (TokenMapper.init 5000 [])).num2tok 1 = some START_UTTERANCE :=
  ⟨by decide, by decide, c7_roundtrip 5000 [] [] START_UTTERANCE 1 (by decide) (by decide)⟩

/-- C4 (counterexample): (a) looking up the absent token `"a"` in the
mapping built from the empty corpus INSERTS it with index 0 (the
`defaultdict` factory), so after that lookup a key other than the unknown
token holds index 0, violating the claimed invariant; (b) moreover, if the
corpus itself contains the unknown symbol, the numbering loop renumbers it
to a positive index, so the unknown token no longer holds index 0. -/
theorem c4_counterexample :
    alookup (ddlookup (get_word_map 5000 []).1 [97]).2 [97] = some 0 ∧
    ([97] : PyStr) ≠ UNKNOWN_TOKEN ∧
    alookup (get_word_map 5000 [[UNKNOWN_TOKEN]]).1 UNKNOWN_TOKEN = some 1 := by
  decide

/-- C4 (corrected claim): for a corpus that does not contain the unknown
symbol, the mapping AS BUILT by `get_word_map` satisfies the invariant:
lookups of absent tokens return index 0 and never fail (although each
such `defaultdict` lookup inserts the absent token with index 0, so the
invariant holds of the constructed mapping, before any absent-token
lookups); every key other than the unknown token has a strictly positive
index; and index 0 is held exclusively by the unknown token in both
directions. -/
theorem c4_word_map_invariant (maxV : Nat) (corpus : List (List PyStr))
    (hunk : UNKNOWN_TOKEN ∉ corpus.join) :
    (∀ t, alookup (get_word_map maxV corpus).1 t = none →
      (ddlookup (get_word_map maxV corpus).1 t).1 = 0) ∧
    alookup (get_word_map maxV corpus).1 UNKNOWN_TOKEN = some 0 ∧
    (∀ t v, alookup (get_word_map maxV corpus).1 t = some v →
      t ≠ UNKNOWN_TOKEN → 0 < v) ∧
    (∀ t, alookup (get_word_map maxV corpus).1 t = some 0 → t = UNKNOWN_TOKEN) ∧
    alookup (get_word_map maxV corpus).2 0 = some UNKNOWN_TOKEN ∧
    (∀ v, alookup (get_word_map maxV corpus).2 v = some UNKNOWN_TOKEN → v = 0) := by
  obtain ⟨hkeys, hvals, hlt, hpos, hzero, hlen⟩ := get_word_map_t2n_facts maxV corpus
  have hnotok : UNKNOWN_TOKEN ∉ most_common maxV corpus := fun h =>
    hunk (mem_most_common _ _ _ h)
  have hunk0 : alookup (get_word_map maxV corpus).1 UNKNOWN_TOKEN = some 0 := by
    show alookup (buildT2N (most_common maxV corpus) 1
      (dinsert [] UNKNOWN_TOKEN get_unknown_token)) UNKNOWN_TOKEN = some 0
    rw [buildT2N_alookup_notMem _ _ _ _ hnotok]
    simp [alookup, dinsert, get_unknown_token]
  refine ⟨?_, hunk0, ?_, ?_, ?_, ?_⟩
  · intro t h
    simp [ddlookup, h, get_unknown_token]
  · intro t v hl ht
    have := hpos (t, v) (alookup_mem _ _ _ hl) ht
    omega
  · intro t hl
    exact hzero (t, 0) (alookup_mem _ _ _ hl) rfl
  · show alookup (dinsert (invertMap (get_word_map maxV corpus).1) 0 UNKNOWN_TOKEN) 0 =
      some UNKNOWN_TOKEN
    exact alookup_dinsert_self _ _ _
  · intro v hl
    by_cases hv : v = 0
    · exact hv
    · exfalso
      rw [show (get_word_map maxV corpus).2 =
        dinsert (invertMap (get_word_map maxV corpus).1) 0 UNKNOWN_TOKEN from rfl] at hl
      rw [alookup_dinsert_ne _ _ _ _ hv, invertMap_eq_map_swap _ hvals] at hl
      have hmem := alookup_mem _ _ _ hl
      obtain ⟨q, hq, he⟩ := List.mem_map.mp hmem
      have hq2 : q.2 = v := by
        have := congrArg Prod.fst he
        simpa [Prod.swap] using this
      have hq1 : q.1 = UNKNOWN_TOKEN := by
        have := congrArg Prod.snd he
        simpa [Prod.swap] using this
      have hlu : alookup (get_word_map maxV corpus).1 UNKNOWN_TOKEN = some v := by
        have h2 := alookup_of_mem _ hkeys q.1 q.2 (by simpa using hq)
        rw [hq1, hq2] at h2
        exact h2
      rw [hunk0] at hlu
      exact hv (Option.some.inj hlu).symm

/-- Witness for C4's corrected theorem at the one-token corpus `[["a"]]`. -/
theorem c4_word_map_invariant_witness :
    UNKNOWN_TOKEN ∉ ([[[97]]] : List (List PyStr)).join ∧
    ((∀ t, alookup (get_word_map 5000 [[[97]]]).1 t = none →
        (ddlookup (get_word_map 5000 [[[97]]]).1 t).1 = 0) ∧
      alookup (get_word_map 5000 [[[97]]]).1 UNKNOWN_TOKEN = some 0 ∧
      (∀ t v, alookup (get_word_map 5000 [[[97]]]).1 t = some v →
        t ≠ UNKNOWN_TOKEN → 0 < v) ∧
      (∀ t, alookup (get_word_map 5000 [[[97]]]).1 t = some 0 → t = UNKNOWN_TOKEN) ∧
      alookup (get_word_map 5000 [[[97]]]).2 0 = some UNKNOWN_TOKEN ∧
      (∀ v, alookup (get_word_map 5000 [[[97]]]).2 v = some UNKNOWN_TOKEN → v = 0)) :=
  ⟨by decide, c4_word_map_invariant 5000 [[[97]]] (by decide)⟩
